import Mathlib

/-!
Verification of the `bert` Go package (a BERT / Erlang External Term Format
codec with a BURP framing layer) against its natural-language specification.

The embedding works over `List Nat` byte streams (each byte a `Nat`; every
byte the Go code emits is reduced modulo 256 exactly where the Go code casts
to a fixed-width integer).  The Go reader primitives are built on
`ioutil.ReadAll(io.LimitReader(r, n))`, which returns the available bytes and
a `nil` error even when fewer than `n` bytes remain; the subsequent
`bits[0]` / `binary.BigEndian.Uint16` / `Uint32` accesses then panic on a
short buffer.  Both behaviours are modelled faithfully: a Go runtime panic
is the `DecFail.panic` outcome, a returned `error` value is `DecFail.goErr`.

Go slices are modelled by lists with capacity equal to length (the only
shape the package ever constructs), so `b[0:k]` with `k > len(b)` is a
panic.  Decoded `[]Term` values (tuples, lists and the empty list) are all
represented by the `Term.tuple` constructor, matching the fact that Go
returns the same `[]Term` dynamic type for all three.
-/

namespace Bert

/-- Wire tag constants from the Go source (`VersionTag = 131` etc.). -/
def VersionTag : Nat := 131
def SmallIntTag : Nat := 97
def IntTag : Nat := 98
def SmallBignumTag : Nat := 110
def LargeBignumTag : Nat := 111
def FloatTag : Nat := 99
def AtomTag : Nat := 100
def SmallTupleTag : Nat := 104
def LargeTupleTag : Nat := 105
def NilTag : Nat := 106
def StringTag : Nat := 107
def ListTag : Nat := 108
def BinTag : Nat := 109
def BitTag : Nat := 77

/-- The dynamic `Term` universe of the Go package (`Term = interface\x7b\x7d`).
Constructors mirror the native values the encoder accepts and the decoder
produces: signed integers and `big.Int` (`int`), the unsigned family
(`uint`), atoms, strings, binaries (`[]byte`), small tuples (`[]Term`
slices), lists (`[n]Term` arrays and the `List` wrapper struct), bitstrings,
the Go `nil` value and booleans (booleans arise only from decoding the
`bert` complex wrapper).  A float value is represented by its trimmed wire
text: the IEEE-754 decimal formatting and parsing done by `fmt.Sprintf` and
`strconv.ParseFloat` is outside this embedding, and no theorem below
depends on float payloads. -/
inductive Term where
  | int (n : ℤ)
  | uint (n : ℕ)
  | float (text : List Nat)
  | atom (s : List Nat)
  | str (s : List Nat)
  | binary (b : List Nat)
  | tuple (ts : List Term)
  | list (ts : List Term)
  | bitstring (bytes : List Nat) (bits : Nat)
  | nil
  | bool (b : Bool)

mutual

/-- Structural boolean equality on `Term` (the nested list keeps the derive
handler from producing `DecidableEq`, so it is built by hand). -/
def teq : Term → Term → Bool
  | .int a, .int b => a == b
  | .uint a, .uint b => a == b
  | .float a, .float b => a == b
  | .atom a, .atom b => a == b
  | .str a, .str b => a == b
  | .binary a, .binary b => a == b
  | .tuple a, .tuple b => teqList a b
  | .list a, .list b => teqList a b
  | .bitstring a c, .bitstring b d => a == b && c == d
  | .nil, .nil => true
  | .bool a, .bool b => a == b
  | _, _ => false

/-- Elementwise `teq` on term lists. -/
def teqList : List Term → List Term → Bool
  | [], [] => true
  | a :: as, b :: bs => teq a b && teqList as bs
  | _, _ => false

end

mutual

theorem teq_iff : ∀ (a b : Term), teq a b = true ↔ a = b
  | .int _, b => by cases b <;> simp [teq]
  | .uint _, b => by cases b <;> simp [teq]
  | .float _, b => by cases b <;> simp [teq]
  | .atom _, b => by cases b <;> simp [teq]
  | .str _, b => by cases b <;> simp [teq]
  | .binary _, b => by cases b <;> simp [teq]
  | .tuple as, b => by cases b <;> simp [teq, teqList_iff as]
  | .list as, b => by cases b <;> simp [teq, teqList_iff as]
  | .bitstring _ _, b => by cases b <;> simp [teq]
  | .nil, b => by cases b <;> simp [teq]
  | .bool _, b => by cases b <;> simp [teq]

theorem teqList_iff : ∀ (as bs : List Term), teqList as bs = true ↔ as = bs
  | [], [] => by simp [teqList]
  | [], _ :: _ => by simp [teqList]
  | _ :: _, [] => by simp [teqList]
  | a :: as, b :: bs => by simp [teqList, teq_iff a b, teqList_iff as bs]

end

instance : DecidableEq Term := fun a b => decidable_of_iff _ (teq_iff a b)

/-- The byte content of the sentinel atoms (`BertAtom = Atom("bert")` etc.). -/
def bertBytes : List Nat := [98, 101, 114, 116]
def nilBytes : List Nat := [110, 105, 108]
def trueBytes : List Nat := [116, 114, 117, 101]
def falseBytes : List Nat := [102, 97, 108, 115, 101]

/-- The error values returned by the Go decoder (`ErrBadMagic`,
`ErrUnknownType`, `ErrUintType`) plus the `strconv.ParseFloat` failure. -/
inductive GoErr where
  | badMagic
  | unknownType
  | uintType
  | parseFloat
deriving DecidableEq

/-- Decoder outcomes other than success: a Go runtime panic (index or slice
out of range, negative `make` length, misuse of `reflect`), a returned
`error` value, or exhaustion of the fuel that bounds the recursion of the
embedded parser (unreachable when the fuel exceeds the input length, since
every recursive step first consumes a tag byte). -/
inductive DecFail where
  | panic
  | goErr (e : GoErr)
  | outOfFuel
deriving DecidableEq

instance {ε α : Type} [DecidableEq ε] [DecidableEq α] : DecidableEq (Except ε α)
  | .ok a, .ok b => decidable_of_iff (a = b) (by simp)
  | .ok _, .error _ => isFalse (by simp)
  | .error _, .ok _ => isFalse (by simp)
  | .error e, .error f => decidable_of_iff (e = f) (by simp)

@[simp] theorem except_ok_bind {ε α β : Type} (a : α) (f : α → Except ε β) :
    (Except.ok a >>= f) = f a := rfl

@[simp] theorem except_error_bind {ε α β : Type} (e : ε) (f : α → Except ε β) :
    (Except.error e >>= f : Except ε β) = Except.error e := rfl

/-- Go `read1`: `ioutil.ReadAll(io.LimitReader(r, 1))` never fails, so on an
empty stream `bits` is empty and `bits[0]` panics; otherwise one byte is
consumed. -/
def read1 : List Nat → Except DecFail (Nat × List Nat)
  | [] => .error .panic
  | b :: r => .ok (b, r)

/-- Go `read2`: reads up to two bytes; `binary.BigEndian.Uint16` panics when
fewer than two bytes were available. -/
def read2 : List Nat → Except DecFail (Nat × List Nat)
  | b0 :: b1 :: r => .ok (b0 * 256 + b1, r)
  | _ => .error .panic

/-- The Go conversion `int(int32(ui32))`: reinterpret a 32-bit unsigned
value as two's-complement signed. -/
def int32OfUint32 (u : Nat) : ℤ :=
  if u < 2147483648 then (u : ℤ) else (u : ℤ) - 4294967296

/-- Go `read4`: reads up to four bytes; `binary.BigEndian.Uint32` panics when
fewer than four were available; the result is `int(int32(ui32))`. -/
def read4 : List Nat → Except DecFail (ℤ × List Nat)
  | b0 :: b1 :: b2 :: b3 :: r =>
      .ok (int32OfUint32 (((b0 * 256 + b1) * 256 + b2) * 256 + b3), r)
  | _ => .error .panic

/-- Go `readFloat`: reads up to 31 bytes, scans to the first zero byte, and
parses the prefix with `strconv.ParseFloat`.  An empty prefix fails to
parse; a nonempty prefix is kept as the float's text (the numeric parse is
abstracted, see `Term.float`). -/
def readFloat (bs : List Nat) : Except DecFail (Term × List Nat) :=
  let bits := bs.take 31
  let text := bits.takeWhile (fun b => b ≠ 0)
  if text.isEmpty then .error (.goErr .parseFloat)
  else .ok (.float text, bs.drop 31)

/-- Go `readString`: a 2-byte length then `ReadAll(LimitReader(r, size))`,
which silently returns fewer bytes when the stream is short. -/
def readString (bs : List Nat) : Except DecFail (List Nat × List Nat) := do
  let (size, bs1) ← read2 bs
  .ok (bs1.take size, bs1.drop size)

/-- Go `readAtom`: `readString` retagged as an atom. -/
def readAtom (bs : List Nat) : Except DecFail (Term × List Nat) := do
  let (s, bs1) ← readString bs
  .ok (.atom s, bs1)

/-- Go `readNil`: consumes up to one byte (result and error both ignored;
`ReadAll` cannot fail) and returns an empty `[]Term`. -/
def readNil (bs : List Nat) : Except DecFail (Term × List Nat) :=
  .ok (.tuple [], bs.drop 1)

/-- Go `readBin`: a 4-byte signed length, then `LimitReader` with that
length (a non-positive length reads nothing), returning whatever bytes were
available. -/
def readBin (bs : List Nat) : Except DecFail (List Nat × List Nat) := do
  let (size, bs1) ← read4 bs
  let n := if size ≤ 0 then 0 else size.toNat
  .ok (bs1.take n, bs1.drop n)

/-- Go `readBit`: 4-byte byte-count, 1-byte trailing-bit count, then the
available payload bytes. -/
def readBit (bs : List Nat) : Except DecFail (Term × List Nat) := do
  let (size, bs1) ← read4 bs
  let (bits, bs2) ← read1 bs1
  let n := if size ≤ 0 then 0 else size.toNat
  .ok (.bitstring (bs2.take n) bits, bs2.drop n)

/-- Go `readComplex`: decode one more term; the atoms `nil`, `true`, `false`
collapse to the corresponding native value, anything else is returned as
is.  The recursive tag reader is passed as `rt`. -/
def readComplex (rt : List Nat → Except DecFail (Term × List Nat)) (bs : List Nat) :
    Except DecFail (Term × List Nat) := do
  let (t, bs1) ← rt bs
  match t with
  | .atom s =>
      if s = nilBytes then .ok (.nil, bs1)
      else if s = trueBytes then .ok (.bool true, bs1)
      else if s = falseBytes then .ok (.bool false, bs1)
      else .ok (.atom s, bs1)
  | _ => .ok (t, bs1)

/-- The element loop of Go `readSmallTuple`: each decoded element that is
the `bert` atom aborts the tuple and yields `readComplex` instead (the Go
switch fires at every index, not only the first). -/
def readTupleElems (rt : List Nat → Except DecFail (Term × List Nat)) :
    Nat → List Nat → List Term → Except DecFail (Term × List Nat)
  | 0, bs, acc => .ok (.tuple acc.reverse, bs)
  | n + 1, bs, acc => do
      let (t, bs1) ← rt bs
      if t = Term.atom bertBytes then readComplex rt bs1
      else readTupleElems rt n bs1 (t :: acc)

/-- Go `readSmallTuple`: 1-byte arity then the element loop. -/
def readSmallTuple (rt : List Nat → Except DecFail (Term × List Nat)) (bs : List Nat) :
    Except DecFail (Term × List Nat) := do
  let (size, bs1) ← read1 bs
  readTupleElems rt size bs1 []

/-- The element loop of Go `readList` (no `bert` handling here). -/
def readListElems (rt : List Nat → Except DecFail (Term × List Nat)) :
    Nat → List Nat → List Term → Except DecFail (List Term × List Nat)
  | 0, bs, acc => .ok (acc.reverse, bs)
  | n + 1, bs, acc => do
      let (t, bs1) ← rt bs
      readListElems rt n bs1 (t :: acc)

/-- Go `readList`: 4-byte signed count (`make([]Term, size)` panics when the
count is negative), the elements, then `read1(r)` for the terminator whose
value and error are discarded — but whose out-of-range panic on an empty
stream still escapes. -/
def readList (rt : List Nat → Except DecFail (Term × List Nat)) (bs : List Nat) :
    Except DecFail (Term × List Nat) := do
  let (size, bs1) ← read4 bs
  if size < 0 then .error .panic
  else do
    let (elems, bs2) ← readListElems rt size.toNat bs1 []
    match read1 bs2 with
    | .error e => .error e
    | .ok (_, bs3) => .ok (.tuple elems, bs3)

/-- Go `readTag`: one tag byte dispatches to the per-tag reader.  The `fuel`
argument bounds the recursion depth of the embedded parser; every recursive
call happens after the tag byte was consumed, so fuel exceeding the input
length can never run out. -/
def readTag : Nat → List Nat → Except DecFail (Term × List Nat)
  | 0, _ => .error .outOfFuel
  | fuel + 1, bs => do
      let (tag, bs1) ← read1 bs
      match tag with
      | 97 => do -- SmallIntTag, readSmallInt = read1
          let (n, bs2) ← read1 bs1
          .ok (.int (n : ℤ), bs2)
      | 98 => do -- IntTag, readInt = read4
          let (n, bs2) ← read4 bs1
          .ok (.int n, bs2)
      | 110 => .error (.goErr .unknownType) -- SmallBignumTag
      | 111 => .error (.goErr .unknownType) -- LargeBignumTag
      | 99 => readFloat bs1 -- FloatTag
      | 100 => readAtom bs1 -- AtomTag
      | 104 => readSmallTuple (readTag fuel) bs1 -- SmallTupleTag
      | 105 => .error (.goErr .unknownType) -- LargeTupleTag
      | 106 => readNil bs1 -- NilTag
      | 107 => do -- StringTag
          let (s, bs2) ← readString bs1
          .ok (.str s, bs2)
      | 108 => readList (readTag fuel) bs1 -- ListTag
      | 109 => do -- BinTag
          let (b, bs2) ← readBin bs1
          .ok (.binary b, bs2)
      | 77 => readBit bs1 -- BitTag
      | _ => .error (.goErr .unknownType)

/-- Go `DecodeFrom`: check the leading version byte, then parse one term.
The fuel `length + 1` strictly exceeds every reachable recursion depth. -/
def decodeFrom (bs : List Nat) : Except DecFail Term := do
  let (version, bs1) ← read1 bs
  if version = 131 then do
    let (t, _) ← readTag (bs1.length + 1) bs1
    .ok t
  else .error (.goErr .badMagic)

/-- Go `Decode`: `DecodeFrom` over an in-memory buffer. -/
def decode (bs : List Nat) : Except DecFail Term := decodeFrom bs

/-- Encoder-side failures: `ErrUnknownType` (and `ErrUintType`, unused by
the current `writeTag`) returned as error values, or a Go runtime panic
(slice bounds out of range). -/
inductive EncErr where
  | unknownType
  | uintType
  | goPanic
deriving DecidableEq

/-- Go `write1`: the callers cast to `uint8`, hence the reduction mod 256. -/
def write1 (n : Nat) : List Nat := [n % 256]

/-- Go `write2`: big-endian bytes of `uint16(n)`. -/
def write2 (n : Nat) : List Nat := [n / 256 % 256, n % 256]

/-- Go `write4`: big-endian bytes of `uint32(n)`. -/
def write4 (n : Nat) : List Nat :=
  [n / 16777216 % 256, n / 65536 % 256, n / 256 % 256, n % 256]

/-- Go `writeSmallInt`: tag 97 then one byte. -/
def writeSmallInt (n : Nat) : List Nat := 97 :: write1 n

/-- The Go conversion `uint32(x)` of a signed value. -/
def toUint32 (n : ℤ) : Nat := (n % 4294967296).toNat

/-- Digit loop for `natBytesBE`, made structural in a fuel argument so that
it reduces inside the kernel; `natBytesBE` passes `n` itself as fuel, which
dominates the digit count. -/
def natBytesBEAux : Nat → Nat → List Nat
  | _, 0 => []
  | 0, _ + 1 => []
  | fuel + 1, n + 1 => natBytesBEAux fuel ((n + 1) / 256) ++ [(n + 1) % 256]

/-- The minimal big-endian byte string of a natural number, as produced by
Go `big.Int.Bytes()` (empty for zero, no leading zero bytes otherwise). -/
def natBytesBE (n : Nat) : List Nat := natBytesBEAux n n

/-- Go `writeNumber`: inside the `n.IsInt64()` guard, values in `[0,255]`
take the small-integer tag and values in the 32-bit two's-complement range
take the 4-byte integer tag; everything else falls through to the small
bignum tag — one byte-count byte (`uint8(len(bytes))`), one sign byte
(`n.Sign() > -1` gives 0, otherwise 1), then the big-endian magnitude
byte-reversed into little-endian order. -/
def writeNumber (n : ℤ) : List Nat :=
  if -9223372036854775808 ≤ n ∧ n ≤ 9223372036854775807 ∧ 0 ≤ n ∧ n < 256 then
    writeSmallInt n.toNat
  else if (-9223372036854775808 ≤ n ∧ n ≤ 9223372036854775807) ∧
      -2147483648 ≤ n ∧ n ≤ 2147483647 then
    98 :: write4 (toUint32 n)
  else
    110 :: write1 (natBytesBE n.natAbs).length ++
      (if 0 ≤ n then [0] else [1]) ++ (natBytesBE n.natAbs).reverse

/-- Go `writeAtom`: tag 100, 2-byte length (`uint16(len(a))`), raw bytes. -/
def writeAtom (a : List Nat) : List Nat := 100 :: write2 a.length ++ a

/-- Go `writeString`: tag 107, 2-byte length (`uint16(len(s))`), raw bytes. -/
def writeString (s : List Nat) : List Nat := 107 :: write2 s.length ++ s

/-- Go `writeBinary`: tag 109, 4-byte length (`uint32(size)`), raw bytes. -/
def writeBinary (b : List Nat) : List Nat := 109 :: write4 b.length ++ b

/-- Go `writeBitstring`: tag 77, 4-byte byte-count `(bits+7)/8`, one byte
`bits % 8`, then the buffer left-padded with zero bytes up to the
byte-count and truncated to exactly that many bytes. -/
def writeBitstring (a : List Nat) (bits : Nat) : List Nat :=
  let size := (bits + 7) / 8
  77 :: write4 size ++ [bits % 8] ++ (List.replicate (size - a.length) 0 ++ a).take size

mutual

/-- Go `writeTag`: runtime-shape dispatch of the encoder.  The result is
the byte sequence actually written to the sink together with the returned
error, mirroring the fact that Go keeps partial output on failure:
* the signed family and `big.Int` go to `writeNumber`;
* the unsigned family is widened (`bn.SetUint64(n)`) and goes to
  `writeNumber`;
* a float's payload is its text padded to 31 bytes (`writeFloat`; the
  decimal formatting itself is abstracted, see `Term.float`);
* `Atom`-typed text goes to `writeAtom`, other text to `writeString`;
* `[]byte` goes to `writeBinary`, other slices to `writeSmallTuple`
  (tag 104, `uint8(size)` arity, elements in order, stopping at the first
  element error);
* arrays and the `List` wrapper go to `writeList` (tag 108, `uint32(size)`
  count, elements in order stopping at the first error, then the nil
  terminator which Go writes even after an element error);
* a `Bitstring` whose bit count is not a multiple of 8 goes to
  `writeBitstring`; one whose bit count is a multiple of 8 is re-encoded as
  `writeBinary(b.Bytes[0:b.Bits/8])`, which panics when the buffer holds
  fewer than `Bits/8` bytes;
* the Go `nil` value writes the bare nil tag;
* booleans (and any other shape) hit the default case and return
  `ErrUnknownType`. -/
def writeTag : Term → List Nat × Option EncErr
  | .int n => (writeNumber n, none)
  | .uint n => (writeNumber (n : ℤ), none)
  | .float text => (99 :: (text ++ List.replicate (31 - text.length) 0), none)
  | .atom a => (writeAtom a, none)
  | .str s => (writeString s, none)
  | .binary b => (writeBinary b, none)
  | .tuple ts =>
      let r := writeSeq ts
      (104 :: write1 ts.length ++ r.1, r.2)
  | .list ts =>
      let r := writeSeq ts
      (108 :: write4 ts.length ++ r.1 ++ [106], r.2)
  | .bitstring b bits =>
      if bits % 8 ≠ 0 then (writeBitstring b bits, none)
      else if bits / 8 ≤ b.length then (writeBinary (b.take (bits / 8)), none)
      else ([], some .goPanic)
  | .nil => ([106], none)
  | .bool _ => ([], some .unknownType)

/-- The shared element loop of `writeSmallTuple` and `writeList`: encode
each element in order, stopping after the first element that reports an
error (whose own partial output is kept). -/
def writeSeq : List Term → List Nat × Option EncErr
  | [] => ([], none)
  | t :: ts =>
      let r := writeTag t
      match r.2 with
      | some e => (r.1, some e)
      | none =>
          let rs := writeSeq ts
          (r.1 ++ rs.1, rs.2)

end

/-- Go `Encode` / `EncodeTo`: the version byte, then `writeTag`; the bytes
written before a failure stay in the buffer. -/
def Encode (t : Term) : List Nat × Option EncErr :=
  let r := writeTag t
  (131 :: r.1, r.2)

/-- Go `MarshalResponse`: encode the value, then emit a 4-byte big-endian
length prefix (`uint32(len(resp))`) followed by the encoded bytes. -/
def MarshalResponse (t : Term) : List Nat × Option EncErr :=
  let r := Encode t
  (write4 r.1.length ++ r.1, r.2)

/-- The Go `Request` record: three atoms and an argument sequence. -/
structure Request where
  Kind : List Nat
  Module : List Nat
  Function : List Nat
  Arguments : List Term
deriving DecidableEq

/-- The zero value of `Request` (empty atoms, nil argument slice). -/
def defaultRequest : Request := ⟨[], [], [], []⟩

/-- One step of the positional reflect binding in Go `UnmarshalFrom`:
`v.Field(i).Set(slice.Index(i).Elem())`.  Field 0–2 have type `Atom` and
field 3 has type `[]Term`, so only those dynamic types are assignable;
every other combination — including a field index past 3 and the `nil`
element whose `Elem()` is a zero `reflect.Value` — panics. -/
def setField (r : Request) (i : Nat) (t : Term) : Except DecFail Request :=
  match i, t with
  | 0, .atom s => .ok { r with Kind := s }
  | 1, .atom s => .ok { r with Module := s }
  | 2, .atom s => .ok { r with Function := s }
  | 3, .tuple ts => .ok { r with Arguments := ts }
  | _, _ => .error .panic

/-- The field loop of Go `UnmarshalFrom` over a decoded `[]Term`. -/
def bindFields (r : Request) (i : Nat) : List Term → Except DecFail Request
  | [] => .ok r
  | t :: ts => do
      let r1 ← setField r i t
      bindFields r1 (i + 1) ts

/-- Go `UnmarshalFrom`'s reflect traversal of the decode result, with the
target fixed to `Request`:  `reflect.Value.Len` works on slice and string
kinds (decoded `[]Term`, `Atom`, `string`, `[]uint8`) and panics on every
other kind; for string and byte-slice results a nonempty sequence panics at
`slice.Index(0).Elem()` (the element is not an interface), while an empty
one leaves the zero `Request` untouched. -/
def bindRequest : Term → Except DecFail Request
  | .tuple ts => bindFields defaultRequest 0 ts
  | .atom s => if s.isEmpty then .ok defaultRequest else .error .panic
  | .str s => if s.isEmpty then .ok defaultRequest else .error .panic
  | .binary b => if b.isEmpty then .ok defaultRequest else .error .panic
  | _ => .error .panic

/-- Go `UnmarshalFrom` with a `*Request` target: the decode error is
discarded (`result, _ := DecodeFrom(r)`) and the function returns `nil`
unconditionally — after a decode failure the result interface is `nil`, so
the reflect traversal panics on a zero `reflect.Value`; a panic raised
inside decoding propagates. -/
def UnmarshalFromRequest (bs : List Nat) : Except DecFail Request :=
  match decodeFrom bs with
  | .ok t => bindRequest t
  | .error .panic => .error .panic
  | .error .outOfFuel => .error .outOfFuel
  | .error (.goErr _) => .error .panic

/-- Go `UnmarshalRequest`: read the 4-byte frame length, then run
`UnmarshalFrom` on a `LimitReader` of that many bytes (a non-positive
length exposes no bytes). -/
def UnmarshalRequest (bs : List Nat) : Except DecFail Request := do
  let (size, bs1) ← read4 bs
  let limited := if size ≤ 0 then ([] : List Nat) else bs1.take size.toNat
  UnmarshalFromRequest limited

/-- The term a 4-field `Request` encodes as: a `[]Term` slice routes to the
small-tuple codec, and its `Arguments` element (itself a `[]Term`) again
routes to the small-tuple codec. -/
def requestTerm (r : Request) : Term :=
  .tuple [.atom r.Kind, .atom r.Module, .atom r.Function, .tuple r.Arguments]

mutual

/-- The round-trippable domain of the codec, read off from the two sides of
the source: integers within the 32-bit decode range (larger ones encode to
the bignum tag the decoder rejects), atoms and strings short enough for
their 2-byte length field, binaries and lists short enough for their signed
4-byte length, single-byte bitstrings with a genuinely fractional bit count
(the encoder reads `Bits` as a total bit count and the decoder returns the
trailing-bit byte, so only `1 ≤ bits ≤ 7` survives), tuples within the
1-byte arity whose direct elements avoid the decode-side `bert` sentinel,
and lists of such elements.  The unsigned family re-decodes as signed,
floats pass through text formatting, `nil` re-decodes as an empty `[]Term`
(`readNil` even consumes an extra byte) and booleans do not encode at all,
so none of those are in the domain. -/
def WFb : Term → Bool
  | .int n => decide (-2147483648 ≤ n ∧ n ≤ 2147483647)
  | .uint _ => false
  | .float _ => false
  | .atom s => decide (s.length < 65536)
  | .str s => decide (s.length < 65536)
  | .binary b => decide (b.length < 2147483648)
  | .bitstring b bits => decide (b.length = 1 ∧ 1 ≤ bits ∧ bits ≤ 7)
  | .tuple ts => decide (ts.length ≤ 255) && WFtupleElems ts
  | .list ts => decide (ts.length < 2147483648) && WFlistElems ts
  | .nil => false
  | .bool _ => false

/-- Well-formedness of direct tuple elements: each element is itself
round-trippable and is not the `bert` atom (which `readSmallTuple` would
reroute to `readComplex`). -/
def WFtupleElems : List Term → Bool
  | [] => true
  | t :: ts => WFb t && decide (t ≠ Term.atom bertBytes) && WFtupleElems ts

/-- Well-formedness of list elements (`readList` has no `bert` check). -/
def WFlistElems : List Term → Bool
  | [] => true
  | t :: ts => WFb t && WFlistElems ts

end

mutual

/-- What a value decodes back to: the decoder returns the same generic
`[]Term` shape for tuples and lists, so `canon` collapses the `list`
constructor into `tuple` and is the identity everywhere else. -/
def canon : Term → Term
  | .tuple ts => .tuple (canonList ts)
  | .list ts => .tuple (canonList ts)
  | t => t

/-- Elementwise `canon`. -/
def canonList : List Term → List Term
  | [] => []
  | t :: ts => canon t :: canonList ts

end

mutual

/-- Nesting depth of a term — an upper bound on the recursion depth the
decoder needs, used to discharge the parser fuel. -/
def depth : Term → Nat
  | .tuple ts => depthList ts + 1
  | .list ts => depthList ts + 1
  | _ => 1

/-- Maximum depth over a list of terms. -/
def depthList : List Term → Nat
  | [] => 0
  | t :: ts => max (depth t) (depthList ts)

end

mutual

/-- Whether a term contains no `list` constructor (on such terms `canon` is
the identity, so the round-trip returns the value unchanged). -/
def listFree : Term → Bool
  | .tuple ts => listFreeList ts
  | .list _ => false
  | _ => true

/-- Elementwise `listFree`. -/
def listFreeList : List Term → Bool
  | [] => true
  | t :: ts => listFree t && listFreeList ts

end

theorem canon_atom_iff (t : Term) (s : List Nat) : canon t = Term.atom s ↔ t = Term.atom s := by
  cases t <;> simp [canon]

mutual

theorem canon_of_listFree : ∀ (t : Term), listFree t = true → canon t = t
  | .int _, _ => rfl
  | .uint _, _ => rfl
  | .float _, _ => rfl
  | .atom _, _ => rfl
  | .str _, _ => rfl
  | .binary _, _ => rfl
  | .bitstring _ _, _ => rfl
  | .nil, _ => rfl
  | .bool _, _ => rfl
  | .list _, h => by simp [listFree] at h
  | .tuple ts, h => by
      simp only [listFree] at h
      simp [canon, canonList_of_listFree ts h]

theorem canonList_of_listFree : ∀ (ts : List Term), listFreeList ts = true → canonList ts = ts
  | [], _ => rfl
  | t :: ts, h => by
      simp only [listFreeList, Bool.and_eq_true] at h
      simp [canonList, canon_of_listFree t h.1, canonList_of_listFree ts h.2]

end

theorem WFtupleElems_mem : ∀ (ts : List Term), WFtupleElems ts = true →
    ∀ t ∈ ts, WFb t = true ∧ t ≠ Term.atom bertBytes
  | [], _, t, ht => absurd ht (List.not_mem_nil t)
  | u :: ts, h, t, ht => by
      simp only [WFtupleElems, Bool.and_eq_true, decide_eq_true_eq] at h
      rcases List.mem_cons.mp ht with rfl | hmem
      · exact ⟨h.1.1, h.1.2⟩
      · exact WFtupleElems_mem ts h.2 t hmem

theorem WFlistElems_mem : ∀ (ts : List Term), WFlistElems ts = true →
    ∀ t ∈ ts, WFb t = true
  | [], _, t, ht => absurd ht (List.not_mem_nil t)
  | u :: ts, h, t, ht => by
      simp only [WFlistElems, Bool.and_eq_true] at h
      rcases List.mem_cons.mp ht with rfl | hmem
      · exact h.1
      · exact WFlistElems_mem ts h.2 t hmem

theorem read2_write2 (m : Nat) (h : m < 65536) (rest : List Nat) :
    read2 (write2 m ++ rest) = .ok (m, rest) := by
  simp only [write2, List.cons_append, List.nil_append, read2]
  have hv : m / 256 % 256 * 256 + m % 256 = m := by omega
  rw [hv]

theorem read4_write4_val (m : Nat) (h : m < 4294967296) (rest : List Nat) :
    read4 (write4 m ++ rest) = .ok (int32OfUint32 m, rest) := by
  simp only [write4, List.cons_append, List.nil_append, read4]
  have hv : ((m / 16777216 % 256 * 256 + m / 65536 % 256) * 256 + m / 256 % 256) * 256 +
      m % 256 = m := by omega
  rw [hv]

theorem int32OfUint32_small (m : Nat) (h : m < 2147483648) :
    int32OfUint32 m = (m : ℤ) := by
  simp [int32OfUint32, h]

theorem read4_write4_pos (m : Nat) (h : m < 2147483648) (rest : List Nat) :
    read4 (write4 m ++ rest) = .ok ((m : ℤ), rest) := by
  rw [read4_write4_val m (by omega) rest, int32OfUint32_small m h]

theorem int32OfUint32_toUint32 (n : ℤ) (h1 : -2147483648 ≤ n) (h2 : n ≤ 2147483647) :
    int32OfUint32 (toUint32 n) = n := by
  simp only [int32OfUint32, toUint32]
  split
  · next h => omega
  · next h => omega

theorem toUint32_lt (n : ℤ) : toUint32 n < 4294967296 := by
  simp only [toUint32]
  omega

theorem readString_exact (s rest : List Nat) (h : s.length < 65536) :
    readString (write2 s.length ++ (s ++ rest)) = .ok (s, rest) := by
  simp only [readString, read2_write2 s.length h (s ++ rest), except_ok_bind]
  rw [List.take_left, List.drop_left]

theorem readAtom_exact (s rest : List Nat) (h : s.length < 65536) :
    readAtom (write2 s.length ++ (s ++ rest)) = .ok (.atom s, rest) := by
  simp [readAtom, readString_exact s rest h]

theorem writeNumber_small (n : ℤ) (h1 : 0 ≤ n) (h2 : n < 256) :
    writeNumber n = [97, n.toNat] := by
  unfold writeNumber
  rw [if_pos ⟨by omega, by omega, h1, h2⟩]
  simp [writeSmallInt, write1, Nat.mod_eq_of_lt (show n.toNat < 256 by omega)]

theorem writeNumber_int32 (n : ℤ) (h1 : -2147483648 ≤ n) (h2 : n ≤ 2147483647)
    (hn : ¬(0 ≤ n ∧ n < 256)) : writeNumber n = 98 :: write4 (toUint32 n) := by
  unfold writeNumber
  rw [if_neg (by rintro ⟨-, -, c, d⟩; exact hn ⟨c, d⟩),
    if_pos ⟨⟨by omega, by omega⟩, h1, h2⟩]

theorem writeNumber_big (n : ℤ) (h : n < -2147483648 ∨ 2147483647 < n) :
    writeNumber n = 110 :: ((natBytesBE n.natAbs).length % 256) ::
      (if 0 ≤ n then 0 else 1) :: (natBytesBE n.natAbs).reverse := by
  unfold writeNumber
  rw [if_neg (by rintro ⟨-, -, c, d⟩; omega), if_neg (by rintro ⟨-, c, d⟩; omega)]
  by_cases h0 : 0 ≤ n <;> simp [h0, write1]

theorem readTag_97 (f n : Nat) (bs : List Nat) :
    readTag (f + 1) (97 :: n :: bs) = .ok (.int (n : ℤ), bs) := rfl

theorem readTag_98 (f : Nat) (bs : List Nat) :
    readTag (f + 1) (98 :: bs) = (read4 bs >>= fun p => .ok (.int p.1, p.2)) := rfl

theorem readTag_100 (f : Nat) (bs : List Nat) :
    readTag (f + 1) (100 :: bs) = readAtom bs := rfl

theorem readTag_104 (f : Nat) (bs : List Nat) :
    readTag (f + 1) (104 :: bs) = readSmallTuple (readTag f) bs := rfl

theorem readTag_107 (f : Nat) (bs : List Nat) :
    readTag (f + 1) (107 :: bs) = (readString bs >>= fun p => .ok (.str p.1, p.2)) := rfl

theorem readTag_108 (f : Nat) (bs : List Nat) :
    readTag (f + 1) (108 :: bs) = readList (readTag f) bs := rfl

theorem readTag_109 (f : Nat) (bs : List Nat) :
    readTag (f + 1) (109 :: bs) = (readBin bs >>= fun p => .ok (.binary p.1, p.2)) := rfl

theorem readTag_77 (f : Nat) (bs : List Nat) :
    readTag (f + 1) (77 :: bs) = readBit bs := rfl

mutual

theorem writeTag_none : ∀ (t : Term), WFb t = true → (writeTag t).2 = none
  | .int _, _ => rfl
  | .atom _, _ => rfl
  | .str _, _ => rfl
  | .binary _, _ => rfl
  | .nil, _ => rfl
  | .uint _, h => by simp [WFb] at h
  | .float _, h => by simp [WFb] at h
  | .bool _, h => by simp [WFb] at h
  | .bitstring b bits, h => by
      simp only [WFb, decide_eq_true_eq] at h
      simp [writeTag, show bits % 8 ≠ 0 by omega]
  | .tuple ts, h => by
      simp only [WFb, Bool.and_eq_true, decide_eq_true_eq] at h
      simpa [writeTag] using writeSeq_none ts (fun t ht => (WFtupleElems_mem ts h.2 t ht).1)
  | .list ts, h => by
      simp only [WFb, Bool.and_eq_true, decide_eq_true_eq] at h
      simpa [writeTag] using writeSeq_none ts (WFlistElems_mem ts h.2)

theorem writeSeq_none : ∀ (ts : List Term), (∀ t ∈ ts, WFb t = true) → (writeSeq ts).2 = none
  | [], _ => rfl
  | t :: ts, h => by
      have h1 := writeTag_none t (h t (List.mem_cons_self t ts))
      have h2 := writeSeq_none ts (fun u hu => h u (List.mem_cons_of_mem t hu))
      simp [writeSeq, h1, h2]

end

theorem writeSeq_cons_bytes (t : Term) (ts : List Term) (h : (writeTag t).2 = none) :
    (writeSeq (t :: ts)).1 = (writeTag t).1 ++ (writeSeq ts).1 := by
  simp [writeSeq, h]

theorem one_le_writeNumber_len (n : ℤ) : 1 ≤ (writeNumber n).length := by
  unfold writeNumber
  split_ifs <;> simp [writeSmallInt, write1, write4]

mutual

theorem depth_le_enc : ∀ (t : Term), WFb t = true → depth t ≤ (writeTag t).1.length
  | .int n, _ => by simpa [depth, writeTag] using one_le_writeNumber_len n
  | .atom s, _ => by simp [depth, writeTag, writeAtom]
  | .str s, _ => by simp [depth, writeTag, writeString]
  | .binary b, _ => by simp [depth, writeTag, writeBinary]
  | .nil, h => by simp [WFb] at h
  | .uint _, h => by simp [WFb] at h
  | .float _, h => by simp [WFb] at h
  | .bool _, h => by simp [WFb] at h
  | .bitstring b bits, h => by
      simp only [WFb, decide_eq_true_eq] at h
      simp [depth, writeTag, show bits % 8 ≠ 0 by omega, writeBitstring]
  | .tuple ts, h => by
      simp only [WFb, Bool.and_eq_true, decide_eq_true_eq] at h
      have hseq := depthList_le_enc ts (fun t ht => (WFtupleElems_mem ts h.2 t ht).1)
      simp only [depth, writeTag, List.length_cons, List.length_append, write1]
      omega
  | .list ts, h => by
      simp only [WFb, Bool.and_eq_true, decide_eq_true_eq] at h
      have hseq := depthList_le_enc ts (WFlistElems_mem ts h.2)
      simp only [depth, writeTag, List.length_cons, List.length_append, write4]
      omega

theorem depthList_le_enc : ∀ (ts : List Term), (∀ t ∈ ts, WFb t = true) →
    depthList ts ≤ (writeSeq ts).1.length
  | [], _ => by simp [depthList, writeSeq]
  | t :: ts, h => by
      have hwt := h t (List.mem_cons_self t ts)
      have h1 := depth_le_enc t hwt
      have h2 := depthList_le_enc ts (fun u hu => h u (List.mem_cons_of_mem t hu))
      rw [writeSeq_cons_bytes t ts (writeTag_none t hwt)]
      simp only [depthList, List.length_append]
      exact Nat.max_le.mpr ⟨Nat.le_trans h1 (Nat.le_add_right _ _),
        Nat.le_trans h2 (Nat.le_add_left _ _)⟩

end

theorem readBin_exact (b rest : List Nat) (h : b.length < 2147483648) :
    readBin (write4 b.length ++ (b ++ rest)) = .ok (b, rest) := by
  simp only [readBin, read4_write4_pos b.length h, except_ok_bind]
  have hn : (if (b.length : ℤ) ≤ 0 then 0 else ((b.length : ℤ)).toNat) = b.length := by
    split_ifs <;> omega
  rw [hn, List.take_left, List.drop_left]

mutual

theorem readTag_writeTag : ∀ (t : Term) (fuel : Nat) (rest : List Nat),
    WFb t = true → depth t ≤ fuel →
    readTag fuel ((writeTag t).1 ++ rest) = .ok (canon t, rest)
  | .uint _, _, _, hwf, _ => by simp [WFb] at hwf
  | .float _, _, _, hwf, _ => by simp [WFb] at hwf
  | .nil, _, _, hwf, _ => by simp [WFb] at hwf
  | .bool _, _, _, hwf, _ => by simp [WFb] at hwf
  | .int n, fuel, rest, hwf, hd => by
      simp only [WFb, decide_eq_true_eq] at hwf
      obtain ⟨f, rfl⟩ : ∃ f, fuel = f + 1 := ⟨fuel - 1, by simp [depth] at hd; omega⟩
      by_cases hs : 0 ≤ n ∧ n < 256
      · rw [show (writeTag (Term.int n)).1 = writeNumber n from rfl,
          writeNumber_small n hs.1 hs.2]
        simp only [List.cons_append, List.nil_append, readTag_97]
        simp [canon, Int.toNat_of_nonneg hs.1]
      · rw [show (writeTag (Term.int n)).1 = writeNumber n from rfl,
          writeNumber_int32 n hwf.1 hwf.2 hs, List.cons_append, readTag_98,
          read4_write4_val (toUint32 n) (toUint32_lt n) rest]
        simp [int32OfUint32_toUint32 n hwf.1 hwf.2, canon]
  | .atom s, fuel, rest, hwf, hd => by
      simp only [WFb, decide_eq_true_eq] at hwf
      obtain ⟨f, rfl⟩ : ∃ f, fuel = f + 1 := ⟨fuel - 1, by simp [depth] at hd; omega⟩
      rw [show (writeTag (Term.atom s)).1 = writeAtom s from rfl]
      simp only [writeAtom, List.cons_append, List.append_assoc, readTag_100]
      rw [readAtom_exact s rest hwf]
      simp [canon]
  | .str s, fuel, rest, hwf, hd => by
      simp only [WFb, decide_eq_true_eq] at hwf
      obtain ⟨f, rfl⟩ : ∃ f, fuel = f + 1 := ⟨fuel - 1, by simp [depth] at hd; omega⟩
      rw [show (writeTag (Term.str s)).1 = writeString s from rfl]
      simp only [writeString, List.cons_append, List.append_assoc, readTag_107]
      rw [readString_exact s rest hwf]
      simp [canon]
  | .binary b, fuel, rest, hwf, hd => by
      simp only [WFb, decide_eq_true_eq] at hwf
      obtain ⟨f, rfl⟩ : ∃ f, fuel = f + 1 := ⟨fuel - 1, by simp [depth] at hd; omega⟩
      rw [show (writeTag (Term.binary b)).1 = writeBinary b from rfl]
      simp only [writeBinary, List.cons_append, List.append_assoc, readTag_109]
      rw [readBin_exact b rest hwf]
      simp [canon]
  | .bitstring b bits, fuel, rest, hwf, hd => by
      simp only [WFb, decide_eq_true_eq] at hwf
      obtain ⟨f, rfl⟩ : ∃ f, fuel = f + 1 := ⟨fuel - 1, by simp [depth] at hd; omega⟩
      obtain ⟨x, rfl⟩ := List.length_eq_one.mp hwf.1
      have hmod : bits % 8 = bits := Nat.mod_eq_of_lt (by omega)
      have hne : bits % 8 ≠ 0 := by omega
      rw [show (writeTag (Term.bitstring [x] bits)).1 = writeBitstring [x] bits by
        simp [writeTag, hne]]
      have hsz : (bits + 7) / 8 = 1 := by omega
      rw [show writeBitstring [x] bits = 77 :: 0 :: 0 :: 0 :: 1 :: bits :: [x] by
        simp [writeBitstring, hsz, hmod]
        rfl]
      simp only [List.cons_append, List.singleton_append, readTag_77]
      simp [readBit, read4, read1, int32OfUint32, canon]
  | .tuple ts, fuel, rest, hwf, hd => by
      simp only [WFb, Bool.and_eq_true, decide_eq_true_eq] at hwf
      obtain ⟨f, rfl⟩ : ∃ f, fuel = f + 1 := ⟨fuel - 1, by simp [depth] at hd; omega⟩
      have hdl : depthList ts ≤ f := by simp [depth] at hd; omega
      rw [show (writeTag (Term.tuple ts)).1 = 104 :: write1 ts.length ++ (writeSeq ts).1
        from rfl]
      simp only [write1, List.cons_append, List.singleton_append, List.append_assoc,
        List.nil_append, readTag_104]
      rw [show ts.length % 256 = ts.length from Nat.mod_eq_of_lt (by omega)]
      simp only [readSmallTuple, read1, except_ok_bind]
      rw [readTupleElems_writeSeq ts f rest [] hwf.2 hdl]
      simp [canon]
  | .list ts, fuel, rest, hwf, hd => by
      simp only [WFb, Bool.and_eq_true, decide_eq_true_eq] at hwf
      obtain ⟨f, rfl⟩ : ∃ f, fuel = f + 1 := ⟨fuel - 1, by simp [depth] at hd; omega⟩
      have hdl : depthList ts ≤ f := by simp [depth] at hd; omega
      rw [show (writeTag (Term.list ts)).1 =
        108 :: write4 ts.length ++ (writeSeq ts).1 ++ [106] from rfl]
      simp only [List.cons_append, List.append_assoc, List.singleton_append,
        List.nil_append, readTag_108]
      simp only [readList, read4_write4_pos ts.length hwf.1 _, except_ok_bind]
      rw [if_neg (by omega : ¬((ts.length : ℤ) < 0))]
      simp only [Int.toNat_natCast]
      rw [readListElems_writeSeq ts f (106 :: rest) [] hwf.2 hdl]
      simp [read1, canon]

theorem readTupleElems_writeSeq : ∀ (ts : List Term) (fuel : Nat) (rest : List Nat)
    (acc : List Term), WFtupleElems ts = true → depthList ts ≤ fuel →
    readTupleElems (readTag fuel) ts.length ((writeSeq ts).1 ++ rest) acc
      = .ok (.tuple (acc.reverse ++ canonList ts), rest)
  | [], fuel, rest, acc, _, _ => by simp [writeSeq, readTupleElems, canonList]
  | t :: ts, fuel, rest, acc, hwf, hd => by
      simp only [WFtupleElems, Bool.and_eq_true, decide_eq_true_eq] at hwf
      have hmax := Nat.max_le.mp (by simpa [depthList] using hd)
      rw [writeSeq_cons_bytes t ts (writeTag_none t hwf.1.1), List.append_assoc]
      simp only [List.length_cons, readTupleElems]
      rw [readTag_writeTag t fuel ((writeSeq ts).1 ++ rest) hwf.1.1 hmax.1]
      simp only [except_ok_bind]
      rw [if_neg (fun hc => hwf.1.2 ((canon_atom_iff t bertBytes).mp hc))]
      rw [readTupleElems_writeSeq ts fuel rest (canon t :: acc) hwf.2 hmax.2]
      simp [canonList]

theorem readListElems_writeSeq : ∀ (ts : List Term) (fuel : Nat) (rest : List Nat)
    (acc : List Term), WFlistElems ts = true → depthList ts ≤ fuel →
    readListElems (readTag fuel) ts.length ((writeSeq ts).1 ++ rest) acc
      = .ok (acc.reverse ++ canonList ts, rest)
  | [], fuel, rest, acc, _, _ => by simp [writeSeq, readListElems, canonList]
  | t :: ts, fuel, rest, acc, hwf, hd => by
      simp only [WFlistElems, Bool.and_eq_true] at hwf
      have hmax := Nat.max_le.mp (by simpa [depthList] using hd)
      rw [writeSeq_cons_bytes t ts (writeTag_none t hwf.1), List.append_assoc]
      simp only [List.length_cons, readListElems]
      rw [readTag_writeTag t fuel ((writeSeq ts).1 ++ rest) hwf.1 hmax.1]
      simp only [except_ok_bind]
      rw [readListElems_writeSeq ts fuel rest (canon t :: acc) hwf.2 hmax.2]
      simp [canonList]

end

/-- The central round-trip fact: on the well-formed domain, decoding an
encoding succeeds and returns the canonical shape of the input. -/
theorem decode_Encode (t : Term) (h : WFb t = true) :
    decode ((Encode t).1) = .ok (canon t) := by
  have hb : readTag ((writeTag t).1.length + 1) ((writeTag t).1 ++ []) =
      .ok (canon t, []) :=
    readTag_writeTag t ((writeTag t).1.length + 1) [] h
      (Nat.le_trans (depth_le_enc t h) (Nat.le_succ _))
  rw [List.append_nil] at hb
  simp [decode, decodeFrom, Encode, read1, hb]

theorem writeSeq_flat : ∀ (ts : List Term), (writeSeq ts).2 = none →
    (writeSeq ts).1 = (ts.map fun t => (writeTag t).1).flatten
  | [], _ => rfl
  | t :: ts, h => by
      cases hw : (writeTag t).2 with
      | some e => simp [writeSeq, hw] at h
      | none =>
          have h2 : (writeSeq ts).2 = none := by simpa [writeSeq, hw] using h
          simp [writeSeq, hw, writeSeq_flat ts h2]

/-- Decoding a small tuple whose first element is the `bert` atom hands the
stream to `readComplex`: the second element is decoded, the three special
atoms collapse to native values, any other second element is returned as
decoded.  The arity byte `a + 1` is arbitrary (only positivity matters,
since the remaining elements are never read) and so is the trailing
stream. -/
theorem decode_bert_tuple (a : Nat) (s rest : List Nat) (hs : s.length < 65536) :
    decode (131 :: 104 :: (a + 1) :: (writeAtom bertBytes ++ (writeAtom s ++ rest)))
      = .ok (if s = nilBytes then Term.nil
             else if s = trueBytes then Term.bool true
             else if s = falseBytes then Term.bool false
             else Term.atom s) := by
  unfold decode decodeFrom
  simp only [read1, except_ok_bind, List.length_cons, if_true]
  generalize hF : (writeAtom bertBytes ++ (writeAtom s ++ rest)).length + 1 + 1 = F
  rw [readTag_104]
  simp only [readSmallTuple, read1, except_ok_bind, readTupleElems]
  rw [show writeAtom bertBytes ++ (writeAtom s ++ rest)
      = (writeTag (Term.atom bertBytes)).1 ++ (writeAtom s ++ rest) from rfl,
    readTag_writeTag (Term.atom bertBytes) F (writeAtom s ++ rest) (by decide)
      (by simp only [depth]; omega)]
  simp only [except_ok_bind, canon, if_pos rfl, readComplex]
  rw [show writeAtom s ++ rest = (writeTag (Term.atom s)).1 ++ rest from rfl,
    readTag_writeTag (Term.atom s) F rest (by simpa [WFb] using hs)
      (by simp only [depth]; omega)]
  simp only [except_ok_bind, canon]
  split_ifs <;> rfl

/-- A sample well-formed term exercising every round-trippable shape, used
by the round-trip witness. -/
def sampleTerm : Term :=
  .tuple [.int 300, .atom [102, 111, 111], .binary [1, 2],
    .bitstring [128] 1, .str [104, 105], .tuple []]

/-- C1 (amended): `decode(encode(x)) = x` holds on the well-formed domain
`WFb` — integers in the small and 32-bit ranges, atoms and strings shorter
than 65536 bytes, binaries shorter than 2^31 bytes, single-byte bitstrings
with 1–7 bits, tuples of arity at most 255 without a direct `bert`-atom
element — up to `canon`, which collapses the list constructor into the
generic sequence shape the decoder returns; on list-free values the
round-trip is the identity.  The claim as stated is false for bignum-range
integers (see the counterexample), for lists (the `List`/array identity is
lost), and floats are outside the embedding. -/
theorem decode_encode_wellformed (t : Term) (h : WFb t = true) :
    decode ((Encode t).1) = .ok (canon t) ∧ (Encode t).2 = none ∧
    (listFree t = true → canon t = t) := by
  refine ⟨decode_Encode t h, ?_, canon_of_listFree t⟩
  simpa [Encode] using writeTag_none t h

/-- C1 witness: the round-trip theorem applied to a concrete list-free
well-formed term. -/
theorem decode_encode_wellformed_witness :
    WFb sampleTerm = true ∧ decode ((Encode sampleTerm).1) = .ok sampleTerm := by
  refine ⟨by decide, ?_⟩
  have h := decode_encode_wellformed sampleTerm (by decide)
  have h1 := h.1
  rw [h.2.2 (by decide)] at h1
  exact h1

/-- C1 counterexample: an integer in the bignum range encodes to the small
bignum tag 110, which the decoder rejects with `ErrUnknownType`, so
`decode(encode(2^32))` is an error rather than `2^32`. -/
theorem bignum_encode_fails_decode :
    decode ((Encode (Term.int 4294967296)).1) = .error (.goErr .unknownType) ∧
    (Encode (Term.int 4294967296)).1 = [131, 110, 5, 0, 0, 0, 0, 0, 1] := by decide

/-- C2: the Go reader primitives are built on `ioutil.ReadAll`, which
reports no error at end of stream, so a truncated length-prefixed payload
decodes successfully to a partial (here zero-valued) result, and a
truncated fixed-width read panics on an out-of-range index instead of
returning an `UnexpectedEnd` error — no such error exists in the code. -/
theorem truncated_input_outcomes :
    decode [131, 107, 0, 3] = .ok (.str []) ∧
    decode [131, 97] = .error .panic ∧
    decode [131, 98, 0, 0] = .error .panic ∧
    decode [131, 109, 0, 0, 0, 4, 1, 2] = .ok (.binary [1, 2]) := by decide

/-- C3: `UnmarshalFrom` discards the decode error (`result, _ :=
DecodeFrom(r)`) and returns `nil` unconditionally; on a bad frame the
reflect traversal panics on the nil result instead of returning the error,
and a decoded tuple with fewer than four fields silently yields a partially
populated `Request` with a `nil` error. -/
theorem unmarshal_discards_decode_error :
    UnmarshalRequest [0, 0, 0, 1, 0] = .error .panic ∧
    UnmarshalRequest [0, 0, 0, 7, 131, 104, 1, 100, 0, 1, 107] =
      .ok ⟨[107], [], [], []⟩ := by decide

/-- C4: `writeNumber` classifies every integer by magnitude — `[0,255]`
takes the 1-byte small-integer tag 97, the rest of the 32-bit
two's-complement range takes the 4-byte integer tag 98, and everything
beyond takes the small bignum tag 110 (the `IsInt64` guard in the source
never changes the selected tag). -/
theorem writeNumber_tag_selection (n : ℤ) :
    writeNumber n =
      if 0 ≤ n ∧ n < 256 then [97, n.toNat]
      else if -2147483648 ≤ n ∧ n ≤ 2147483647 then 98 :: write4 (toUint32 n)
      else 110 :: ((natBytesBE n.natAbs).length % 256) ::
        (if 0 ≤ n then 0 else 1) :: (natBytesBE n.natAbs).reverse := by
  split_ifs with h1 h2 h3
  · exact writeNumber_small n h1.1 h1.2
  · exact writeNumber_int32 n h2.1 h2.2 h1
  · rw [writeNumber_big n (by omega)]
    simp [h3]
  · rw [writeNumber_big n (by omega)]
    simp [h3]

/-- C5: outside the 32-bit range the encoder emits tag 110, a 1-byte
byte-count (`uint8` of the magnitude length), a sign byte that is 0 for
non-negative and 1 for negative values, and the minimal big-endian
magnitude bytes reversed into little-endian order. -/
theorem writeNumber_bignum_layout (n : ℤ)
    (h : n < -2147483648 ∨ 2147483647 < n) :
    writeTag (.int n) = (110 :: ((natBytesBE n.natAbs).length % 256) ::
      (if 0 ≤ n then 0 else 1) :: (natBytesBE n.natAbs).reverse, none) := by
  have hb := writeNumber_big n h
  simp [writeTag, hb]

/-- C5 witness: the layout theorem at `10^11`, reproducing the byte vector
from the package's own test (`{131,110,5,0,0,232,118,72,23}` minus the
version byte). -/
theorem writeNumber_bignum_layout_witness :
    ((100000000000 : ℤ) < -2147483648 ∨ (2147483647 : ℤ) < 100000000000) ∧
    writeTag (.int 100000000000) = ([110, 5, 0, 0, 232, 118, 72, 23], none) := by
  refine ⟨by decide, ?_⟩
  rw [writeNumber_bignum_layout 100000000000 (by decide)]
  decide

/-- C6 (amended): every unsigned-family input is widened to an unbounded
integer and then fed through the same magnitude classifier as signed
values — small values take tag 97 or 98, and only values beyond the 32-bit
range take the bignum tag. -/
theorem uint_widened_classified (n : ℕ) :
    writeTag (.uint n) = (writeNumber (n : ℤ), none) ∧
    (n < 256 → (writeTag (.uint n)).1 = [97, n]) ∧
    (256 ≤ n → n ≤ 2147483647 → (writeTag (.uint n)).1 = 98 :: write4 (toUint32 (n : ℤ))) ∧
    (2147483647 < n → ((writeTag (.uint n)).1).head? = some 110) := by
  refine ⟨rfl, ?_, ?_, ?_⟩
  · intro h
    rw [show (writeTag (Term.uint n)).1 = writeNumber (n : ℤ) from rfl,
      writeNumber_small (n : ℤ) (by omega) (by omega)]
    simp
  · intro h1 h2
    rw [show (writeTag (Term.uint n)).1 = writeNumber (n : ℤ) from rfl,
      writeNumber_int32 (n : ℤ) (by omega) (by omega) (by omega)]
  · intro h
    rw [show (writeTag (Term.uint n)).1 = writeNumber (n : ℤ) from rfl,
      writeNumber_big (n : ℤ) (Or.inr (by omega))]
    rfl

/-- C6 witness: the classifier theorem applied at `uint(1)`. -/
theorem uint_widened_classified_witness :
    (1 : ℕ) < 256 ∧ (writeTag (Term.uint 1)).1 = [97, 1] :=
  ⟨by decide, (uint_widened_classified 1).2.1 (by decide)⟩

/-- C6 counterexample: `uint(1)` is emitted with the small-integer tag 97
(as the package's own test asserts), not with the big-number tag 110. -/
theorem uint_one_not_bignum :
    (writeTag (Term.uint 1)).1 = [97, 1] ∧
    ((writeTag (Term.uint 1)).1).head? ≠ some 110 := by decide

/-- C7 (amended): a bitstring whose bit count is a multiple of 8 and whose
buffer holds at least `bits/8` bytes is emitted exactly as the binary
encoding (tag 109, never 77) of its first `bits/8` bytes — hence of the
whole buffer when the length matches; a shorter buffer makes
`b.Bytes[0:b.Bits/8]` panic instead (see the counterexample). -/
theorem bitstring_multiple8_is_binary (b : List Nat) (bits : Nat)
    (h8 : bits % 8 = 0) (hlen : bits / 8 ≤ b.length) :
    writeTag (.bitstring b bits) = (writeBinary (b.take (bits / 8)), none) ∧
    (writeBinary (b.take (bits / 8))).head? = some 109 ∧
    (b.length = bits / 8 → writeTag (.bitstring b bits) = (writeBinary b, none)) := by
  have hmain : writeTag (.bitstring b bits) = (writeBinary (b.take (bits / 8)), none) := by
    simp [writeTag, h8, hlen]
  refine ⟨hmain, rfl, fun hb => ?_⟩
  rw [hmain, show b.take (bits / 8) = b by rw [← hb]; exact List.take_length b]

/-- C7 witness: a 16-bit bitstring over two bytes encodes as the plain
binary of those bytes. -/
theorem bitstring_multiple8_is_binary_witness :
    16 % 8 = 0 ∧ 16 / 8 ≤ ([1, 2] : List Nat).length ∧
    writeTag (Term.bitstring [1, 2] 16) = (writeBinary [1, 2], none) :=
  ⟨by decide, by decide,
    (bitstring_multiple8_is_binary [1, 2] 16 (by decide) (by decide)).2.2 (by decide)⟩

/-- C7 counterexample: the whole-byte reroute is not total — a `Bitstring`
with `Bits = 8` and an empty buffer panics on the slice expression
`b.Bytes[0:1]` instead of producing any binary encoding. -/
theorem bitstring_short_buffer_panics :
    writeTag (Term.bitstring [] 8) = ([], some EncErr.goPanic) := by decide

/-- C8 witness: the `bert` wrapper theorem at `{bert, nil}`, collapsing to
the native nil value. -/
theorem decode_bert_tuple_witness :
    ([110, 105, 108] : List Nat).length < 65536 ∧
    decode (131 :: 104 :: (0 + 1) ::
      (writeAtom bertBytes ++ (writeAtom [110, 105, 108] ++ []))) = .ok Term.nil := by
  refine ⟨by decide, ?_⟩
  have h := decode_bert_tuple 0 [110, 105, 108] [] (by decide)
  simpa using h

/-- C9 (amended): frame round-trip holds for every `Request` whose encoded
term is well formed (atom fields shorter than 65536 bytes and distinct from
`bert`, at most 255 round-trippable arguments), canonical (no list
constructors), and whose encoding is shorter than 2^31 bytes (the frame
length is read back as a signed 32-bit value); the 4-byte big-endian prefix
is exactly the byte length of the inner encoded term. -/
theorem request_frame_roundtrip (r : Request)
    (hwf : WFb (requestTerm r) = true)
    (hcanon : canon (requestTerm r) = requestTerm r)
    (hlen : ((Encode (requestTerm r)).1).length < 2147483648) :
    UnmarshalRequest ((MarshalResponse (requestTerm r)).1) = .ok r ∧
    ((MarshalResponse (requestTerm r)).1).take 4 =
      write4 ((Encode (requestTerm r)).1).length := by
  constructor
  · have hresp : decodeFrom ((Encode (requestTerm r)).1) = .ok (requestTerm r) := by
      rw [show decodeFrom ((Encode (requestTerm r)).1)
          = decode ((Encode (requestTerm r)).1) from rfl, decode_Encode _ hwf, hcanon]
    rw [show (MarshalResponse (requestTerm r)).1
        = write4 ((Encode (requestTerm r)).1).length ++ (Encode (requestTerm r)).1 from rfl]
    unfold UnmarshalRequest
    rw [read4_write4_pos ((Encode (requestTerm r)).1).length hlen _]
    simp only [except_ok_bind]
    have hpos : ¬(((((Encode (requestTerm r)).1).length : ℤ)) ≤ 0) := by
      have : 1 ≤ ((Encode (requestTerm r)).1).length := by simp [Encode]
      omega
    rw [if_neg hpos]
    simp only [Int.toNat_natCast, List.take_length]
    unfold UnmarshalFromRequest
    rw [hresp]
    obtain ⟨k, m, fn, args⟩ := r
    simp [requestTerm, bindRequest, bindFields, setField, defaultRequest]
  · rw [show (MarshalResponse (requestTerm r)).1
        = write4 ((Encode (requestTerm r)).1).length ++ (Encode (requestTerm r)).1 from rfl,
      show (4 : Nat) = (write4 ((Encode (requestTerm r)).1).length).length from rfl]
    exact List.take_left _ _

/-- C9 witness: frame round-trip on a concrete request with one small
integer argument. -/
theorem request_frame_roundtrip_witness :
    WFb (requestTerm ⟨[97], [98], [99], [.int 5]⟩) = true ∧
    canon (requestTerm ⟨[97], [98], [99], [.int 5]⟩) =
      requestTerm ⟨[97], [98], [99], [.int 5]⟩ ∧
    ((Encode (requestTerm ⟨[97], [98], [99], [.int 5]⟩)).1).length < 2147483648 ∧
    UnmarshalRequest ((MarshalResponse (requestTerm ⟨[97], [98], [99], [.int 5]⟩)).1) =
      .ok ⟨[97], [98], [99], [.int 5]⟩ :=
  ⟨by decide, by decide, by decide,
    (request_frame_roundtrip ⟨[97], [98], [99], [.int 5]⟩
      (by decide) (by decide) (by decide)).1⟩

/-- C9 counterexample: a 4-field request whose argument list holds a
bignum-range integer frame-encodes fine but fails to decode — the swallowed
decode error leaves a nil result and the reflect binding panics — so
`decode-frame(encode-frame(req))` is not `req`. -/
theorem request_frame_roundtrip_fails :
    UnmarshalRequest ((MarshalResponse (requestTerm
      ⟨[97], [98], [99], [Term.int 4294967296]⟩)).1) = .error DecFail.panic ∧
    UnmarshalRequest ((MarshalResponse (requestTerm
      ⟨[97], [98], [99], [Term.int 4294967296]⟩)).1) ≠
      .ok ⟨[97], [98], [99], [Term.int 4294967296]⟩ := by decide

/-- C10: the length and arity fields are emitted modulo their field width
while the full payload is still written — a tuple writes `n mod 256` as its
arity byte yet encodes all `n` elements, and a string or atom writes
`m mod 65536` as its 2-byte length yet all `m` bytes, with no error
returned. -/
theorem length_fields_truncated (ts : List Term) (s a : List Nat)
    (h : (writeSeq ts).2 = none) :
    (writeTag (.tuple ts)).1 = 104 :: (ts.length % 256) ::
      (ts.map fun t => (writeTag t).1).flatten ∧
    (writeTag (.tuple ts)).2 = none ∧
    (writeTag (.str s)).1 = 107 :: (s.length % 65536 / 256) ::
      (s.length % 65536 % 256) :: s ∧
    (writeTag (.atom a)).1 = 100 :: (a.length % 65536 / 256) ::
      (a.length % 65536 % 256) :: a := by
  refine ⟨?_, by simpa [writeTag] using h, ?_, ?_⟩
  · rw [show (writeTag (Term.tuple ts)).1
        = 104 :: write1 ts.length ++ (writeSeq ts).1 from rfl, writeSeq_flat ts h]
    simp [write1]
  · have e1 : s.length % 65536 / 256 = s.length / 256 % 256 := by omega
    have e2 : s.length % 65536 % 256 = s.length % 256 := by omega
    simp [writeTag, writeString, write2, e1, e2]
  · have e1 : a.length % 65536 / 256 = a.length / 256 % 256 := by omega
    have e2 : a.length % 65536 % 256 = a.length % 256 := by omega
    simp [writeTag, writeAtom, write2, e1, e2]

/-- C10 witness: the truncation theorem applied to a singleton tuple. -/
theorem length_fields_truncated_witness :
    (writeSeq [Term.int 0]).2 = none ∧
    (writeTag (Term.tuple [Term.int 0])).1 = 104 :: (1 % 256) ::
      ([Term.int 0].map fun t => (writeTag t).1).flatten :=
  ⟨by decide, (length_fields_truncated [Term.int 0] [] [] (by decide)).1⟩

end Bert
